import Mathlib

/-!
Verification of the MiniGit commit core: the FNV-1a-32 fingerprint
(Hashing.cpp), the CommitNode record with its hash-input encoding,
serialization and deserialization (Commit.cpp / Commit.h), and the
file read/write helpers (FileUtils.cpp).

C++ std::string is modelled as a list of characters (`Str`); the
byte iteration of the hash is modelled through explicit UTF-8 byte
expansion; unsigned 32-bit arithmetic is Nat arithmetic mod 2^32.
The std::unordered_map snapshot is modelled as an association list
together with the map-assignment operation (`mapInsert`), and
std::sort with the `a.first < b.first` comparator is modelled by an
insertion sort over the same comparator (on key-distinct inputs,
which is the only situation a map can produce, every comparison
sort yields this unique strictly-increasing result).
-/

set_option maxRecDepth 100000

/-- C++ std::string, modelled as a list of characters. -/
abbrev Str := List Char

/-- `line.rfind(pre, 0) == 0`: does `s` start with `pre`? -/
def startsWith : Str → Str → Bool
  | [], _ => true
  | _ :: _, [] => false
  | a :: p, b :: s => a == b && startsWith p s

/-- The `while (std::getline(ss, line))` loop: splits at newline
characters; a trailing newline does not produce a final empty line. -/
def getLines : Str → List Str
  | [] => []
  | c :: rest =>
    if c = '\n' then [] :: getLines rest
    else
      match getLines rest with
      | [] => [[c]]
      | l :: ls => (c :: l) :: ls

/-- Stream output of a sequence of lines, each terminated by a newline,
as `serialize` and `calculateHash` produce them. -/
def joinLines (ls : List Str) : Str := (ls.map (fun l => l ++ ['\n'])).flatten

/-- Splits a string into its newline-separated segments (always at least
one segment, the part before the first newline). -/
def splitNL : Str → List Str
  | [] => [[]]
  | c :: rest =>
    match splitNL rest with
    | [] => [[]]
    | s :: ss => if c = '\n' then [] :: s :: ss else (c :: s) :: ss

/-- C++ `operator<` on std::string: lexicographic character comparison. -/
def strLt : Str → Str → Bool
  | [], [] => false
  | [], _ :: _ => true
  | _ :: _, [] => false
  | a :: s, b :: t => if a < b then true else if b < a then false else strLt s t

/-- One step of the sort used to model `std::sort` with the
`a.first < b.first` comparator. -/
def insertEntry (e : Str × Str) : List (Str × Str) → List (Str × Str)
  | [] => [e]
  | f :: rest => if strLt e.1 f.1 then e :: f :: rest else f :: insertEntry e rest

/-- `std::sort(v.begin(), v.end(), [](a, b){ return a.first < b.first; })`
over the vector of snapshot entries. On inputs with pairwise distinct
keys (the only inputs an unordered_map can supply) every comparison sort
agrees with this insertion sort. -/
def sortEntries : List (Str × Str) → List (Str × Str)
  | [] => []
  | e :: rest => insertEntry e (sortEntries rest)

/-- The strict order on snapshot entries used by the sorting step. -/
def entryLt (a b : Str × Str) : Prop := strLt a.1 b.1 = true

/-- UTF-8 byte expansion of one character (std::string stores bytes;
the model stores characters, so the byte view is made explicit). -/
def charUtf8 (c : Char) : List Nat :=
  let n := c.toNat
  if n < 128 then [n]
  else if n < 2048 then [192 + n / 64, 128 + n % 64]
  else if n < 65536 then [224 + n / 4096, 128 + n / 64 % 64, 128 + n % 64]
  else [240 + n / 262144, 128 + n / 4096 % 64, 128 + n / 64 % 64, 128 + n % 64]

/-- The bytes of a string (`for (char c : content)` iterates bytes). -/
def strBytes (s : Str) : List Nat := (s.map charUtf8).flatten

/-- FNV prime, `16777619U`. -/
def FNV_PRIME : Nat := 16777619

/-- FNV offset basis, `2166136261U`. -/
def FNV_OFFSET_BASIS : Nat := 2166136261

/-- `hash ^= byte; hash *= FNV_PRIME;` on a 32-bit unsigned accumulator. -/
def fnvStep (h b : Nat) : Nat := ((h ^^^ b) * FNV_PRIME) % 2 ^ 32

/-- The FNV-1a accumulator loop over a byte sequence. -/
def fnv1a (bs : List Nat) : Nat := bs.foldl fnvStep FNV_OFFSET_BASIS

/-- One lowercase hexadecimal digit. -/
def hexDigitChar (d : Nat) : Char :=
  if d < 10 then Char.ofNat (48 + d) else Char.ofNat (87 + d)

/-- `std::hex << std::setw(8) << std::setfill('0')` rendering of a
32-bit value: exactly eight lowercase hex digits, zero padded. -/
def toHex8 (n : Nat) : Str :=
  (List.range 8).map (fun i => hexDigitChar (n / 16 ^ (7 - i) % 16))

/-- `Hashing::calculateHash`: FNV-1a-32 over the content bytes, rendered
as eight lowercase hexadecimal digits. -/
def Hashing.calculateHash (content : Str) : Str :=
  toHex8 (fnv1a (strBytes content))

/-- The CommitNode class (Commit.h): hash, parent hashes, message,
timestamp and the filename-to-blob-hash snapshot. Defaults are the
default constructor's empty values. -/
structure CommitNode where
  hash : Str := []
  parentHashes : List Str := []
  message : Str := []
  timestamp : Str := []
  fileBlobs : List (Str × Str) := []
deriving DecidableEq

/-- `unordered_map` assignment `m[k] = v`: replaces the value of an
existing key in place, otherwise adds the ⟨k, v⟩ entry. -/
def mapInsert : List (Str × Str) → Str → Str → List (Str × Str)
  | [], k, v => [(k, v)]
  | (k', v') :: rest, k, v =>
    if k' = k then (k', v) :: rest else (k', v') :: mapInsert rest k v

/-- A sequence of map assignments. -/
def insertAll (m : List (Str × Str)) (es : List (Str × Str)) : List (Str × Str) :=
  es.foldl (fun acc e => mapInsert acc e.1 e.2) m

/-- `unordered_map` lookup by key. -/
def mapLookup : List (Str × Str) → Str → Option Str
  | [], _ => none
  | (k', v') :: rest, k => if k' = k then some v' else mapLookup rest k

/-- The content string assembled by `CommitNode::calculateHash`, as the
list of its newline-terminated lines: a bare `commit` header, message,
timestamp, the parent lines, a `tree:` header and the two-space indented
sorted snapshot entries. -/
def hashLines (c : CommitNode) : List Str :=
  ["commit".data, "message:".data ++ c.message, "timestamp:".data ++ c.timestamp]
    ++ c.parentHashes.map (fun p => "parent:".data ++ p)
    ++ ["tree:".data]
    ++ (sortEntries c.fileBlobs).map (fun e => "  ".data ++ e.1 ++ " ".data ++ e.2)

/-- The exact content string hashed by `CommitNode::calculateHash`. -/
def hashContent (c : CommitNode) : Str := joinLines (hashLines c)

/-- `CommitNode::calculateHash`. -/
def CommitNode.calculateHash (c : CommitNode) : Str :=
  Hashing.calculateHash (hashContent c)

/-- The value-taking CommitNode constructor. `generateTimestamp` reads
the wall clock (`std::time(nullptr)`), an external input; it is modelled
by the `now` argument carrying the produced timestamp string. The
constructor stores the fields, sets the timestamp, then computes and
freezes the hash. -/
def mkCommitNode (message : Str) (parentHashes : List Str)
    (fileBlobs : List (Str × Str)) (now : Str) : CommitNode :=
  let c : CommitNode :=
    { hash := [], parentHashes := parentHashes, message := message,
      timestamp := now, fileBlobs := fileBlobs }
  { c with hash := c.calculateHash }

/-- The lines emitted by `CommitNode::serialize`, in order. -/
def serializeLines (c : CommitNode) : List Str :=
  ["type:commit".data, "hash:".data ++ c.hash,
   "message:".data ++ c.message, "timestamp:".data ++ c.timestamp]
    ++ c.parentHashes.map (fun p => "parent:".data ++ p)
    ++ (sortEntries c.fileBlobs).map (fun e => "file:".data ++ e.1 ++ " ".data ++ e.2)

/-- `CommitNode::serialize`: the stored text form of a commit. -/
def CommitNode.serialize (c : CommitNode) : Str := joinLines (serializeLines c)

/-- Modelled from the spec: the hash-input form as the spec describes
it, namely the stored form with only the `hash:` line elided (the code
itself hashes `hashContent`, a different grammar; this definition exists
to compare the two). -/
def encodeWithoutHash (c : CommitNode) : Str :=
  joinLines (["type:commit".data,
    "message:".data ++ c.message, "timestamp:".data ++ c.timestamp]
    ++ c.parentHashes.map (fun p => "parent:".data ++ p)
    ++ (sortEntries c.fileBlobs).map (fun e => "file:".data ++ e.1 ++ " ".data ++ e.2))

/-- The two `std::runtime_error` throws of `CommitNode::deserialize`:
the unexpected-`type:`-value error and the invalid `file:` entry
(no separating space) error. -/
inductive DeserializeError where
  | typeMismatch (got : Str)
  | invalidFileEntry
deriving DecidableEq

/-- One iteration of the `deserialize` line loop: the prefix-dispatch
`if`/`else if` chain over `type:`, `hash:`, `message:`, `timestamp:`,
`parent:` and `file:`; unknown lines are ignored. -/
def parseLine (c : CommitNode) (line : Str) : Except DeserializeError CommitNode :=
  if startsWith "type:".data line then
    if line.drop 5 = "commit".data then .ok c
    else .error (.typeMismatch (line.drop 5))
  else if startsWith "hash:".data line then .ok { c with hash := line.drop 5 }
  else if startsWith "message:".data line then .ok { c with message := line.drop 8 }
  else if startsWith "timestamp:".data line then .ok { c with timestamp := line.drop 10 }
  else if startsWith "parent:".data line then
    .ok { c with parentHashes := c.parentHashes ++ [line.drop 7] }
  else if startsWith "file:".data line then
    let fileEntry := line.drop 5
    match fileEntry.dropWhile (fun ch => ch != ' ') with
    | [] => .error .invalidFileEntry
    | _ :: blobHash =>
      .ok { c with
            fileBlobs := mapInsert c.fileBlobs (fileEntry.takeWhile (fun ch => ch != ' ')) blobHash }
  else .ok c

instance {α β : Type} [DecidableEq α] [DecidableEq β] : DecidableEq (Except α β) :=
  fun a b =>
    match a, b with
    | .ok x, .ok y => if h : x = y then .isTrue (by rw [h]) else .isFalse (by simp [h])
    | .error x, .error y => if h : x = y then .isTrue (by rw [h]) else .isFalse (by simp [h])
    | .ok _, .error _ => .isFalse (by simp)
    | .error _, .ok _ => .isFalse (by simp)

/-- The `deserialize` loop over an explicit list of lines, threading the
commit object being populated. -/
def deserLines (c : CommitNode) : List Str → Except DeserializeError CommitNode
  | [] => .ok c
  | line :: rest =>
    match parseLine c line with
    | .error e => .error e
    | .ok c' => deserLines c' rest

/-- `CommitNode::deserialize`: starts from the default-constructed
commit and processes the content line by line. -/
def CommitNode.deserialize (content : Str) : Except DeserializeError CommitNode :=
  deserLines {} (getLines content)

/-- The well-formedness assumptions of the encoding grammar (spec §6):
no raw newline in message, timestamp, parent identifiers, paths or blob
identifiers, no space in a path, and — as `unordered_map` keys — the
snapshot paths are pairwise distinct. -/
def wellFormed (c : CommitNode) : Prop :=
  '\n' ∉ c.message ∧ '\n' ∉ c.timestamp ∧ (∀ p ∈ c.parentHashes, '\n' ∉ p) ∧
    (∀ e ∈ c.fileBlobs, '\n' ∉ e.1 ∧ ' ' ∉ e.1 ∧ '\n' ∉ e.2) ∧
    (c.fileBlobs.map Prod.fst).Nodup

instance (c : CommitNode) : Decidable (wellFormed c) := by
  unfold wellFormed; infer_instance

/-- The observable inputs of one `FileUtils::readFromFile` call:
existence and regular-file status of the path, whether the open
succeeded, the bytes the read produced, and the size the filesystem
reports for the file. -/
structure FileReadEnv where
  pathExists : Bool
  isRegularFile : Bool
  openOk : Bool
  bytesRead : Str
  reportedSize : Nat

/-- `FileUtils::readFromFile`: returns the success flag and the output
content. On the missing / non-regular / open-failure paths it clears the
content and returns false. After a successful open it stores whatever
the read produced and returns true — the short-read situation
(`content.empty() && fs::file_size(filename) > 0`) only prints a
WARNING to stderr and still returns true. -/
def FileUtils.readFromFile (env : FileReadEnv) : Bool × Str :=
  if !env.pathExists then (false, [])
  else if !env.isRegularFile then (false, [])
  else if !env.openOk then (false, [])
  else (true, env.bytesRead)

/-- The value of the last assignment among a sequence of map
assignments, starting from a fallback value. -/
def lastValFrom (acc : Option Str) (es : List (Str × Str)) (k : Str) : Option Str :=
  es.foldl (fun a e => if e.1 = k then some e.2 else a) acc

/-- Inverse of the hexadecimal rendering, used only to prove the
rendering injective. -/
def hexVal (c : Char) : Nat := if c.toNat ≥ 97 then c.toNat - 87 else c.toNat - 48

/-- Reading a hexadecimal string back into a number. -/
def fromHex8 (s : Str) : Nat := s.foldl (fun a c => a * 16 + hexVal c) 0

/-- The snapshot entry a single line contributes during
deserialization: a recognized `file:` line with a space yields its
⟨path, blob⟩ pair, every other line contributes nothing. -/
def fileEntryOf (line : Str) : Option (Str × Str) :=
  if startsWith "file:".data line then
    match (line.drop 5).dropWhile (fun ch => ch != ' ') with
    | [] => none
    | _ :: bh => some ((line.drop 5).takeWhile (fun ch => ch != ' '), bh)
  else none

/-- All snapshot entries contributed by a sequence of lines, in order. -/
def collectFileEntries (lines : List Str) : List (Str × Str) :=
  lines.filterMap fileEntryOf

/-- The six line prefixes the deserializer recognizes. -/
def knownHeads : List Str :=
  ["type:".data, "hash:".data, "message:".data,
   "timestamp:".data, "parent:".data, "file:".data]

/-- The spec's concrete scenario: message `init`, no parents, snapshot
`a.txt ↦ deadbeef`, clock fixed to `2024-01-01T00:00:00`. -/
def initCommit : CommitNode :=
  mkCommitNode "init".data [] [("a.txt".data, "deadbeef".data)] "2024-01-01T00:00:00".data

/-- A small well-formed commit with a one-entry snapshot. -/
def oneFileCommit : CommitNode :=
  mkCommitNode "m".data [] [("a".data, "b".data)] "t".data

/-- A well-formed two-parent, two-file commit used to instantiate the
round-trip statements. -/
def twoFileCommit : CommitNode :=
  mkCommitNode "hello".data ["p1".data, "p2".data]
    [("b.txt".data, "22".data), ("a.txt".data, "11".data)] "2024-02-02T10:20:30".data

/-- First member of a fingerprint collision pair: identical message,
parents and snapshot as `tsCommitB`, differing only in timestamp. -/
def tsCommitA : CommitNode := mkCommitNode "m".data [] [] "2000-01-05T01:41:51".data

/-- Second member of the collision pair. -/
def tsCommitB : CommitNode := mkCommitNode "m".data [] [] "2000-01-05T15:33:00".data

/-- A commit whose message embeds a newline followed by a line that the
decoder recognizes as a message: line. -/
def nlCommit : CommitNode := mkCommitNode "a\nmessage:b".data [] [] "t".data

/-! ## Order properties of the string comparison -/

theorem strLt_asymm {s t : Str} (h : strLt s t = true) (h' : strLt t s = true) : False := by
  induction s generalizing t with
  | nil => cases t <;> simp [strLt] at h h'
  | cons a s ih =>
    cases t with
    | nil => simp [strLt] at h
    | cons b t =>
      simp only [strLt] at h h'
      rcases lt_trichotomy a b with h1 | h1 | h1
      · rw [if_neg (lt_asymm h1), if_pos h1] at h'; exact absurd h' (by simp)
      · subst h1
        rw [if_neg (lt_irrefl a), if_neg (lt_irrefl a)] at h h'
        exact ih h h'
      · rw [if_neg (lt_asymm h1), if_pos h1] at h; exact absurd h (by simp)

theorem strLt_trans {s t u : Str} (h : strLt s t = true) (h' : strLt t u = true) :
    strLt s u = true := by
  induction s generalizing t u with
  | nil =>
    cases u with
    | nil =>
      cases t with
      | nil => simp [strLt] at h
      | cons b t => simp [strLt] at h'
    | cons c u => simp [strLt]
  | cons a s ih =>
    cases t with
    | nil => simp [strLt] at h
    | cons b t =>
      cases u with
      | nil => simp [strLt] at h'
      | cons c u =>
        simp only [strLt] at h h' ⊢
        rcases lt_trichotomy a b with h1 | h1 | h1
        · rcases lt_trichotomy b c with h2 | h2 | h2
          · rw [if_pos (lt_trans h1 h2)]
          · subst h2; rw [if_pos h1]
          · rw [if_neg (lt_asymm h2), if_pos h2] at h'; exact absurd h' (by simp)
        · subst h1
          rw [if_neg (lt_irrefl a), if_neg (lt_irrefl a)] at h
          rcases lt_trichotomy a c with h2 | h2 | h2
          · rw [if_pos h2]
          · subst h2
            rw [if_neg (lt_irrefl a), if_neg (lt_irrefl a)] at h' ⊢
            exact ih h h'
          · rw [if_neg (lt_asymm h2), if_pos h2] at h'; exact absurd h' (by simp)
        · rw [if_neg (lt_asymm h1), if_pos h1] at h; exact absurd h (by simp)

theorem strLt_or_gt {s t : Str} (h : s ≠ t) : strLt s t = true ∨ strLt t s = true := by
  induction s generalizing t with
  | nil =>
    cases t with
    | nil => exact absurd rfl h
    | cons b t => left; simp [strLt]
  | cons a s ih =>
    cases t with
    | nil => right; simp [strLt]
    | cons b t =>
      rcases lt_trichotomy a b with h1 | h1 | h1
      · left; simp [strLt, h1]
      · subst h1
        have hst : s ≠ t := fun hh => h (by rw [hh])
        rcases ih hst with h2 | h2
        · left; simp [strLt, lt_irrefl, h2]
        · right; simp [strLt, lt_irrefl, h2]
      · right; simp [strLt, h1]

/-! ## The sort is a permutation producing a strictly key-sorted list -/

theorem insertEntry_perm (e : Str × Str) (l : List (Str × Str)) :
    List.Perm (insertEntry e l) (e :: l) := by
  induction l with
  | nil => exact List.Perm.refl _
  | cons f rest ih =>
    simp only [insertEntry]
    by_cases hlt : strLt e.1 f.1 = true
    · rw [if_pos hlt]
    · rw [if_neg hlt]
      exact (ih.cons f).trans (List.Perm.swap e f rest)

theorem sortEntries_perm (l : List (Str × Str)) : List.Perm (sortEntries l) l := by
  induction l with
  | nil => exact List.Perm.refl _
  | cons e rest ih => exact (insertEntry_perm e (sortEntries rest)).trans (ih.cons e)

theorem insertEntry_pairwise {e : Str × Str} {l : List (Str × Str)}
    (hl : l.Pairwise entryLt) (he : ∀ f ∈ l, e.1 ≠ f.1) :
    (insertEntry e l).Pairwise entryLt := by
  induction l with
  | nil => simp [insertEntry]
  | cons f rest ih =>
    rw [List.pairwise_cons] at hl
    simp only [insertEntry]
    by_cases hlt : strLt e.1 f.1 = true
    · rw [if_pos hlt]
      refine List.pairwise_cons.mpr ⟨?_, List.pairwise_cons.mpr hl⟩
      intro g hg
      rcases List.mem_cons.mp hg with hg | hg
      · subst hg; exact hlt
      · exact strLt_trans hlt (hl.1 g hg)
    · rw [if_neg hlt]
      refine List.pairwise_cons.mpr ⟨?_, ih hl.2 (fun g hg => he g (List.mem_cons_of_mem f hg))⟩
      intro g hg
      rcases List.mem_cons.mp ((insertEntry_perm e rest).subset hg) with hg | hg
      · subst hg
        rcases strLt_or_gt (he f (List.mem_cons_self f rest)) with h2 | h2
        · exact absurd h2 hlt
        · exact h2
      · exact hl.1 g hg

theorem sortEntries_pairwise {l : List (Str × Str)} (h : (l.map Prod.fst).Nodup) :
    (sortEntries l).Pairwise entryLt := by
  induction l with
  | nil => simp [sortEntries]
  | cons e rest ih =>
    simp only [List.map_cons, List.nodup_cons, List.mem_map] at h
    refine insertEntry_pairwise (ih h.2) ?_
    intro f hf heq
    exact h.1 ⟨f, (sortEntries_perm rest).subset hf, heq.symm⟩

theorem sortEntries_eq_of_perm {l₁ l₂ : List (Str × Str)} (hp : List.Perm l₁ l₂)
    (hn : (l₁.map Prod.fst).Nodup) : sortEntries l₁ = sortEntries l₂ :=
  @List.eq_of_perm_of_sorted (Str × Str) entryLt
    ⟨fun _ _ h h' => (strLt_asymm h h').elim⟩ _ _
    ((sortEntries_perm l₁).trans (hp.trans (sortEntries_perm l₂).symm))
    (sortEntries_pairwise hn)
    (sortEntries_pairwise ((hp.map Prod.fst).nodup_iff.mp hn))

theorem sortEntries_sortEntries {l : List (Str × Str)} (hn : (l.map Prod.fst).Nodup) :
    sortEntries (sortEntries l) = sortEntries l :=
  sortEntries_eq_of_perm (sortEntries_perm l)
    (((sortEntries_perm l).map Prod.fst).nodup_iff.mpr hn)

/-! ## Splitting emitted lines back apart -/

theorem getLines_line {l t : Str} (h : '\n' ∉ l) :
    getLines (l ++ '\n' :: t) = l :: getLines t := by
  induction l with
  | nil => simp [getLines]
  | cons c l ih =>
    simp only [List.mem_cons, not_or] at h
    have hrec := ih h.2
    have hc : ¬(c = '\n') := fun hh => h.1 hh.symm
    simp only [List.cons_append, getLines, List.append_eq, if_neg hc, hrec]

theorem joinLines_append (a b : List Str) :
    joinLines (a ++ b) = joinLines a ++ joinLines b := by
  simp [joinLines]

theorem joinLines_cons (l : Str) (rest : List Str) :
    joinLines (l :: rest) = l ++ '\n' :: joinLines rest := by
  simp [joinLines]

theorem getLines_joinLines {ls : List Str} (h : ∀ l ∈ ls, '\n' ∉ l) :
    getLines (joinLines ls) = ls := by
  induction ls with
  | nil => rfl
  | cons l rest ih =>
    rw [joinLines_cons, getLines_line (h l (List.mem_cons_self l rest)),
      ih (fun x hx => h x (List.mem_cons_of_mem l hx))]

theorem splitNL_ne_nil (s : Str) : splitNL s ≠ [] := by
  cases s with
  | nil => simp [splitNL]
  | cons c rest =>
    simp only [splitNL]
    cases h : splitNL rest with
    | nil => simp
    | cons a as =>
      by_cases hc : c = '\n' <;> simp [hc]

theorem joinLines_splitNL (s : Str) : joinLines (splitNL s) = s ++ ['\n'] := by
  induction s with
  | nil => simp [splitNL, joinLines]
  | cons c rest ih =>
    cases h : splitNL rest with
    | nil => exact absurd h (splitNL_ne_nil rest)
    | cons a as =>
      rw [h] at ih
      by_cases hc : c = '\n'
      · subst hc
        rw [show splitNL ('\n' :: rest) = [] :: a :: as from by simp [splitNL, h]]
        rw [joinLines_cons, ih]
        simp
      · rw [show splitNL (c :: rest) = (c :: a) :: as from by simp [splitNL, h, hc]]
        rw [joinLines_cons]
        have ih' : a ++ '\n' :: joinLines as = rest ++ ['\n'] := by
          rw [← joinLines_cons]; exact ih
        simp only [List.cons_append, ih']

theorem splitNL_noNL (s : Str) : ∀ seg ∈ splitNL s, '\n' ∉ seg := by
  induction s with
  | nil => simp [splitNL]
  | cons c rest ih =>
    cases h : splitNL rest with
    | nil => exact absurd h (splitNL_ne_nil rest)
    | cons a as =>
      rw [h] at ih
      by_cases hc : c = '\n'
      · subst hc
        simp only [splitNL, h, if_pos rfl]
        intro seg hseg
        rcases List.mem_cons.mp hseg with hseg | hseg
        · subst hseg; simp
        · exact ih seg hseg
      · simp only [splitNL, h, if_neg hc]
        intro seg hseg
        rcases List.mem_cons.mp hseg with hseg | hseg
        · subst hseg
          simp only [List.mem_cons, not_or]
          exact ⟨fun hh => hc hh.symm, ih a (List.mem_cons_self a as)⟩
        · exact ih seg (List.mem_cons_of_mem a hseg)

theorem splitNL_head (s : Str) :
    ∃ ss, splitNL s = s.takeWhile (fun ch => ch != '\n') :: ss := by
  induction s with
  | nil => exact ⟨[], rfl⟩
  | cons c rest ih =>
    rcases ih with ⟨ss, hss⟩
    by_cases hc : c = '\n'
    · subst hc
      refine ⟨splitNL rest, ?_⟩
      have hb : (('\n' : Char) != '\n') = false := by simp
      simp [splitNL, hss, List.takeWhile_cons, hb]
    · refine ⟨ss, ?_⟩
      have hb : (c != '\n') = true := by simp [hc]
      simp [splitNL, hss, List.takeWhile_cons, hb, hc]

/-! ## takeWhile / dropWhile across a satisfying prefix -/

theorem takeWhile_append_all {p : Char → Bool} {f rest : Str} (h : ∀ x ∈ f, p x = true) :
    (f ++ rest).takeWhile p = f ++ rest.takeWhile p := by
  induction f with
  | nil => simp
  | cons c f ih =>
    have hc := h c (List.mem_cons_self c f)
    simp [List.takeWhile_cons, hc, ih (fun x hx => h x (List.mem_cons_of_mem c hx))]

theorem dropWhile_append_all {p : Char → Bool} {f rest : Str} (h : ∀ x ∈ f, p x = true) :
    (f ++ rest).dropWhile p = rest.dropWhile p := by
  induction f with
  | nil => simp
  | cons c f ih =>
    have hc := h c (List.mem_cons_self c f)
    simp [List.dropWhile_cons, hc, ih (fun x hx => h x (List.mem_cons_of_mem c hx))]

theorem dropWhile_eq_nil_of_all {p : Char → Bool} {l : Str} (h : ∀ x ∈ l, p x = true) :
    l.dropWhile p = [] := by
  induction l with
  | nil => rfl
  | cons c l ih =>
    simp [List.dropWhile_cons, h c (List.mem_cons_self c l),
      ih (fun x hx => h x (List.mem_cons_of_mem c hx))]

theorem dropWhile_ne_nil_of_mem {p : Char → Bool} {l : Str} {a : Char} (ha : a ∈ l)
    (hp : p a = false) : l.dropWhile p ≠ [] := by
  induction l with
  | nil => simp at ha
  | cons c l ih =>
    by_cases hc : p c = true
    · have hal : a ∈ l := by
        rcases List.mem_cons.mp ha with h1 | h1
        · subst h1; rw [hp] at hc; exact absurd hc (by simp)
        · exact h1
      simp only [List.dropWhile_cons, hc, if_true]
      exact ih hal
    · have hc' : p c = false := by revert hc; cases p c <;> simp
      simp [List.dropWhile_cons, hc']

/-! ## unordered_map model lemmas -/

theorem mapInsert_notMem {m : List (Str × Str)} {k : Str} (v : Str)
    (h : k ∉ m.map Prod.fst) : mapInsert m k v = m ++ [(k, v)] := by
  induction m with
  | nil => rfl
  | cons e rest ih =>
    obtain ⟨k', v'⟩ := e
    simp only [List.map_cons, List.mem_cons, not_or] at h
    have hne : ¬(k' = k) := fun hh => h.1 hh.symm
    simp [mapInsert, hne, ih h.2]

theorem insertAll_disjoint {es : List (Str × Str)} :
    ∀ {m : List (Str × Str)}, (es.map Prod.fst).Nodup →
      (∀ e ∈ es, e.1 ∉ m.map Prod.fst) → insertAll m es = m ++ es := by
  induction es with
  | nil => intro m _ _; simp [insertAll]
  | cons e rest ih =>
    intro m hnd hdisj
    simp only [List.map_cons, List.nodup_cons, List.mem_map] at hnd
    have h1 : e.1 ∉ m.map Prod.fst := hdisj e (List.mem_cons_self e rest)
    have step : insertAll m (e :: rest) = insertAll (mapInsert m e.1 e.2) rest := rfl
    rw [step, mapInsert_notMem e.2 h1, ih hnd.2 ?_]
    · simp
    · intro f hf hmem
      rw [List.map_append] at hmem
      rcases List.mem_append.mp hmem with hin | hin
      · exact hdisj f (List.mem_cons_of_mem e hf) hin
      · simp only [List.map_cons, List.map_nil, List.mem_cons, List.not_mem_nil, or_false] at hin
        exact hnd.1 ⟨f, hf, hin⟩

theorem mapLookup_mapInsert (m : List (Str × Str)) (a b k : Str) :
    mapLookup (mapInsert m a b) k = if a = k then some b else mapLookup m k := by
  induction m with
  | nil => simp only [mapInsert, mapLookup]
  | cons e rest ih =>
    obtain ⟨k', v'⟩ := e
    by_cases h1 : k' = a <;> by_cases h2 : k' = k <;> by_cases h3 : a = k <;>
      simp_all [mapInsert, mapLookup]

theorem mapLookup_insertAll (es : List (Str × Str)) :
    ∀ (m : List (Str × Str)) (k : Str),
      mapLookup (insertAll m es) k = lastValFrom (mapLookup m k) es k := by
  induction es with
  | nil => intro m k; rfl
  | cons e rest ih =>
    intro m k
    have step : insertAll m (e :: rest) = insertAll (mapInsert m e.1 e.2) rest := rfl
    rw [step, ih, mapLookup_mapInsert]
    rfl

theorem mem_keys_mapInsert {m : List (Str × Str)} {a b x : Str}
    (h : x ∈ (mapInsert m a b).map Prod.fst) : x = a ∨ x ∈ m.map Prod.fst := by
  induction m with
  | nil =>
    simp only [mapInsert, List.map_cons, List.map_nil, List.mem_cons,
      List.not_mem_nil, or_false] at h
    exact Or.inl h
  | cons e rest ih =>
    obtain ⟨k', v'⟩ := e
    by_cases h1 : k' = a
    · rw [show mapInsert ((k', v') :: rest) a b = (k', b) :: rest from by
        simp [mapInsert, h1]] at h
      simp only [List.map_cons, List.mem_cons] at h
      rcases h with h | h
      · exact Or.inl (h.trans h1)
      · exact Or.inr (by simp [h])
    · rw [show mapInsert ((k', v') :: rest) a b = (k', v') :: mapInsert rest a b from by
        simp [mapInsert, h1]] at h
      simp only [List.map_cons, List.mem_cons] at h
      rcases h with h | h
      · exact Or.inr (by simp [h])
      · rcases ih h with h2 | h2
        · exact Or.inl h2
        · exact Or.inr (by simp [h2])

theorem keys_nodup_mapInsert {m : List (Str × Str)} {a b : Str}
    (h : (m.map Prod.fst).Nodup) : ((mapInsert m a b).map Prod.fst).Nodup := by
  induction m with
  | nil => simp [mapInsert]
  | cons e rest ih =>
    obtain ⟨k', v'⟩ := e
    simp only [List.map_cons, List.nodup_cons] at h
    by_cases h1 : k' = a
    · rw [show mapInsert ((k', v') :: rest) a b = (k', b) :: rest from by
        simp [mapInsert, h1]]
      simp only [List.map_cons, List.nodup_cons]
      exact h
    · rw [show mapInsert ((k', v') :: rest) a b = (k', v') :: mapInsert rest a b from by
        simp [mapInsert, h1]]
      simp only [List.map_cons, List.nodup_cons]
      refine ⟨?_, ih h.2⟩
      intro hmem
      rcases mem_keys_mapInsert hmem with h2 | h2
      · exact h1 h2
      · exact h.1 h2

theorem keys_nodup_insertAll {es : List (Str × Str)} :
    ∀ {m : List (Str × Str)}, (m.map Prod.fst).Nodup →
      ((insertAll m es).map Prod.fst).Nodup := by
  induction es with
  | nil => intro m h; exact h
  | cons e rest ih => intro m h; exact ih (keys_nodup_mapInsert h)

/-! ## parseLine on each emitted line shape -/

theorem parseLine_typeCommit (c : CommitNode) : parseLine c ("type:commit".data) = .ok c := rfl

theorem parseLine_type (c : CommitNode) (r : Str) :
    parseLine c ("type:".data ++ r) =
      if r = "commit".data then .ok c else .error (.typeMismatch r) := rfl

theorem parseLine_hash (c : CommitNode) (h : Str) :
    parseLine c ("hash:".data ++ h) = .ok { c with hash := h } := rfl

theorem parseLine_message (c : CommitNode) (m : Str) :
    parseLine c ("message:".data ++ m) = .ok { c with message := m } := rfl

theorem parseLine_timestamp (c : CommitNode) (t : Str) :
    parseLine c ("timestamp:".data ++ t) = .ok { c with timestamp := t } := rfl

theorem parseLine_parent (c : CommitNode) (p : Str) :
    parseLine c ("parent:".data ++ p) =
      .ok { c with parentHashes := c.parentHashes ++ [p] } := rfl

theorem parseLine_fileRaw (c : CommitNode) (r : Str) :
    parseLine c ("file:".data ++ r) =
      match r.dropWhile (fun ch => ch != ' ') with
      | [] => .error .invalidFileEntry
      | _ :: blobHash =>
        .ok { c with
              fileBlobs := mapInsert c.fileBlobs (r.takeWhile (fun ch => ch != ' ')) blobHash } := rfl

theorem parseLine_file (c : CommitNode) {f : Str} (b : Str) (hf : ' ' ∉ f) :
    parseLine c ("file:".data ++ f ++ " ".data ++ b) =
      .ok { c with fileBlobs := mapInsert c.fileBlobs f b } := by
  have hall : ∀ x ∈ f, (x != ' ') = true := by
    intro x hx
    simp only [bne_iff_ne, ne_eq]
    exact fun hh => hf (hh ▸ hx)
  have hassoc : "file:".data ++ f ++ " ".data ++ b = "file:".data ++ (f ++ " ".data ++ b) := by
    simp [List.append_assoc]
  have hsplit : f ++ " ".data ++ b = f ++ (' ' :: b) := by
    rw [List.append_assoc]; rfl
  rw [hassoc, parseLine_fileRaw, hsplit]
  rw [dropWhile_append_all hall, takeWhile_append_all hall]
  have h1 : (' ' :: b).dropWhile (fun ch => ch != ' ') = ' ' :: b := by
    simp [List.dropWhile_cons]
  have h2 : (' ' :: b).takeWhile (fun ch => ch != ' ') = ([] : Str) := by
    simp [List.takeWhile_cons]
  rw [h1, h2]
  simp

theorem startsWith_iff {p s : Str} : startsWith p s = true ↔ ∃ t, s = p ++ t := by
  induction p generalizing s with
  | nil =>
    simp only [startsWith, List.nil_append]
    exact ⟨fun _ => ⟨s, rfl⟩, fun _ => trivial⟩
  | cons a p ih =>
    cases s with
    | nil =>
      simp only [startsWith]
      constructor
      · intro h; exact absurd h (by simp)
      · rintro ⟨t, ht⟩; exact absurd ht (by simp)
    | cons b s =>
      simp only [startsWith, Bool.and_eq_true, beq_iff_eq, ih]
      constructor
      · rintro ⟨hab, t, hts⟩
        subst hab
        exact ⟨t, by rw [hts]; rfl⟩
      · rintro ⟨t, ht⟩
        rw [List.cons_append] at ht
        injection ht with hb hs
        exact ⟨hb.symm, t, hs⟩

theorem parseLine_ignored {line : Str} (c : CommitNode)
    (h1 : startsWith "type:".data line = false)
    (h2 : startsWith "hash:".data line = false)
    (h3 : startsWith "message:".data line = false)
    (h4 : startsWith "timestamp:".data line = false)
    (h5 : startsWith "parent:".data line = false)
    (h6 : startsWith "file:".data line = false) :
    parseLine c line = .ok c := by
  simp [parseLine, h1, h2, h3, h4, h5, h6]

theorem parseLine_badFile {line : Str} (c : CommitNode)
    (hs : startsWith "file:".data line = true) (hns : ' ' ∉ line.drop 5) :
    parseLine c line = .error .invalidFileEntry := by
  obtain ⟨t, rfl⟩ := startsWith_iff.mp hs
  have hdrop : ("file:".data ++ t).drop 5 = t := rfl
  rw [hdrop] at hns
  have hall : ∀ x ∈ t, (x != ' ') = true := by
    intro x hx
    simp only [bne_iff_ne, ne_eq]
    exact fun hh => hns (hh ▸ hx)
  rw [parseLine_fileRaw, dropWhile_eq_nil_of_all hall]

/-! ## Running the line loop over the emitted line blocks -/

theorem deserLines_cons_ok {c c' : CommitNode} {line : Str} (rest : List Str)
    (h : parseLine c line = .ok c') :
    deserLines c (line :: rest) = deserLines c' rest := by
  simp [deserLines, h]

theorem deserLines_cons_err {c : CommitNode} {e : DeserializeError} {line : Str}
    (rest : List Str) (h : parseLine c line = .error e) :
    deserLines c (line :: rest) = .error e := by
  simp [deserLines, h]

theorem deserLines_parents_cont (ps : List Str) (F : List Str) : ∀ c : CommitNode,
    deserLines c (ps.map (fun p => "parent:".data ++ p) ++ F) =
      deserLines { c with parentHashes := c.parentHashes ++ ps } F := by
  induction ps with
  | nil =>
    intro c
    rw [List.map_nil, List.nil_append, List.append_nil]
  | cons p rest ih =>
    intro c
    rw [List.map_cons, List.cons_append,
      deserLines_cons_ok _ (parseLine_parent c p), ih]
    have hl : (c.parentHashes ++ [p]) ++ rest = c.parentHashes ++ (p :: rest) := by simp
    rw [hl]

theorem deserLines_files_cont (es : List (Str × Str)) (F : List Str) :
    ∀ c : CommitNode, (∀ e ∈ es, ' ' ∉ e.1) →
      deserLines c (es.map (fun e => "file:".data ++ e.1 ++ " ".data ++ e.2) ++ F) =
        deserLines { c with fileBlobs := insertAll c.fileBlobs es } F := by
  induction es with
  | nil =>
    intro c _
    rw [List.map_nil, List.nil_append]
    rfl
  | cons e rest ih =>
    intro c h
    rw [List.map_cons, List.cons_append,
      deserLines_cons_ok _ (parseLine_file c e.2 (h e (List.mem_cons_self e rest))),
      ih _ (fun x hx => h x (List.mem_cons_of_mem e hx))]
    rfl

theorem deserLines_ignored_cont (ls : List Str) (F : List Str) : ∀ c : CommitNode,
    (∀ l ∈ ls, startsWith "type:".data l = false ∧ startsWith "hash:".data l = false ∧
      startsWith "message:".data l = false ∧ startsWith "timestamp:".data l = false ∧
      startsWith "parent:".data l = false ∧ startsWith "file:".data l = false) →
    deserLines c (ls ++ F) = deserLines c F := by
  induction ls with
  | nil => intro c _; rfl
  | cons l rest ih =>
    intro c h
    obtain ⟨h1, h2, h3, h4, h5, h6⟩ := h l (List.mem_cons_self l rest)
    rw [List.cons_append, deserLines_cons_ok _ (parseLine_ignored c h1 h2 h3 h4 h5 h6)]
    exact ih _ (fun x hx => h x (List.mem_cons_of_mem l hx))

/-! ## No emitted line contains a newline (under the field rules) -/

theorem noNL_append {a b : Str} (ha : '\n' ∉ a) (hb : '\n' ∉ b) : '\n' ∉ a ++ b := by
  intro h
  rcases List.mem_append.mp h with h | h
  · exact ha h
  · exact hb h

theorem noNL_serializeLines {c : CommitNode}
    (hm : '\n' ∉ c.message) (ht : '\n' ∉ c.timestamp)
    (hps : ∀ p ∈ c.parentHashes, '\n' ∉ p)
    (hfs : ∀ e ∈ c.fileBlobs, '\n' ∉ e.1 ∧ ' ' ∉ e.1 ∧ '\n' ∉ e.2)
    (hh : '\n' ∉ c.hash) :
    ∀ l ∈ serializeLines c, '\n' ∉ l := by
  intro l hl
  simp only [serializeLines] at hl
  rcases List.mem_append.mp hl with h1 | h6
  · rcases List.mem_append.mp h1 with h0 | h5
    · simp only [List.mem_cons, List.not_mem_nil, or_false] at h0
      rcases h0 with rfl | rfl | rfl | rfl
      · decide
      · exact noNL_append (by decide) hh
      · exact noNL_append (by decide) hm
      · exact noNL_append (by decide) ht
    · rcases List.mem_map.mp h5 with ⟨p, hp, rfl⟩
      exact noNL_append (by decide) (hps p hp)
  · rcases List.mem_map.mp h6 with ⟨e, he, rfl⟩
    have he' := hfs e ((sortEntries_perm c.fileBlobs).subset he)
    exact noNL_append (noNL_append (noNL_append (by decide) he'.1) (by decide)) he'.2.2

theorem noNL_encodeLines {c : CommitNode}
    (hm : '\n' ∉ c.message) (ht : '\n' ∉ c.timestamp)
    (hps : ∀ p ∈ c.parentHashes, '\n' ∉ p)
    (hfs : ∀ e ∈ c.fileBlobs, '\n' ∉ e.1 ∧ ' ' ∉ e.1 ∧ '\n' ∉ e.2) :
    ∀ l ∈ (["type:commit".data,
        "message:".data ++ c.message, "timestamp:".data ++ c.timestamp]
        ++ c.parentHashes.map (fun p => "parent:".data ++ p)
        ++ (sortEntries c.fileBlobs).map
            (fun e => "file:".data ++ e.1 ++ " ".data ++ e.2)), '\n' ∉ l := by
  intro l hl
  rcases List.mem_append.mp hl with h1 | h6
  · rcases List.mem_append.mp h1 with h0 | h5
    · simp only [List.mem_cons, List.not_mem_nil, or_false] at h0
      rcases h0 with rfl | rfl | rfl
      · decide
      · exact noNL_append (by decide) hm
      · exact noNL_append (by decide) ht
    · rcases List.mem_map.mp h5 with ⟨p, hp, rfl⟩
      exact noNL_append (by decide) (hps p hp)
  · rcases List.mem_map.mp h6 with ⟨e, he, rfl⟩
    have he' := hfs e ((sortEntries_perm c.fileBlobs).subset he)
    exact noNL_append (noNL_append (noNL_append (by decide) he'.1) (by decide)) he'.2.2

theorem noNL_hashLines {c : CommitNode}
    (hm : '\n' ∉ c.message) (ht : '\n' ∉ c.timestamp)
    (hps : ∀ p ∈ c.parentHashes, '\n' ∉ p)
    (hfs : ∀ e ∈ c.fileBlobs, '\n' ∉ e.1 ∧ ' ' ∉ e.1 ∧ '\n' ∉ e.2) :
    ∀ l ∈ hashLines c, '\n' ∉ l := by
  intro l hl
  simp only [hashLines] at hl
  rcases List.mem_append.mp hl with h1 | h6
  · rcases List.mem_append.mp h1 with h2 | h5
    · rcases List.mem_append.mp h2 with h0 | h4
      · simp only [List.mem_cons, List.not_mem_nil, or_false] at h0
        rcases h0 with rfl | rfl | rfl
        · decide
        · exact noNL_append (by decide) hm
        · exact noNL_append (by decide) ht
      · rcases List.mem_map.mp h4 with ⟨p, hp, rfl⟩
        exact noNL_append (by decide) (hps p hp)
    · simp only [List.mem_cons, List.not_mem_nil, or_false] at h5
      rcases h5 with rfl
      decide
  · rcases List.mem_map.mp h6 with ⟨e, he, rfl⟩
    have he' := hfs e ((sortEntries_perm c.fileBlobs).subset he)
    exact noNL_append (noNL_append (noNL_append (by decide) he'.1) (by decide)) he'.2.2

/-! ## Round trips through deserialization -/

theorem deserialize_serialize (c : CommitNode)
    (hm : '\n' ∉ c.message) (ht : '\n' ∉ c.timestamp)
    (hps : ∀ p ∈ c.parentHashes, '\n' ∉ p)
    (hfs : ∀ e ∈ c.fileBlobs, '\n' ∉ e.1 ∧ ' ' ∉ e.1 ∧ '\n' ∉ e.2)
    (hh : '\n' ∉ c.hash) :
    CommitNode.deserialize c.serialize =
      .ok { hash := c.hash, parentHashes := c.parentHashes, message := c.message,
            timestamp := c.timestamp,
            fileBlobs := insertAll [] (sortEntries c.fileBlobs) } := by
  have hlines : getLines c.serialize = serializeLines c :=
    getLines_joinLines (noNL_serializeLines hm ht hps hfs hh)
  show deserLines {} (getLines c.serialize) = _
  rw [hlines]
  have hsl : serializeLines c = "type:commit".data ::
      ("hash:".data ++ c.hash) ::
      ("message:".data ++ c.message) ::
      ("timestamp:".data ++ c.timestamp) ::
      (c.parentHashes.map (fun p => "parent:".data ++ p)
        ++ (sortEntries c.fileBlobs).map
            (fun e => "file:".data ++ e.1 ++ " ".data ++ e.2)) := rfl
  rw [hsl]
  rw [deserLines_cons_ok _ (parseLine_typeCommit _),
    deserLines_cons_ok _ (parseLine_hash _ _),
    deserLines_cons_ok _ (parseLine_message _ _),
    deserLines_cons_ok _ (parseLine_timestamp _ _)]
  have hfsp : ∀ e ∈ sortEntries c.fileBlobs, ' ' ∉ e.1 :=
    fun e he => (hfs e ((sortEntries_perm c.fileBlobs).subset he)).2.1
  have happ : (sortEntries c.fileBlobs).map
      (fun e => "file:".data ++ e.1 ++ " ".data ++ e.2) =
      (sortEntries c.fileBlobs).map
        (fun e => "file:".data ++ e.1 ++ " ".data ++ e.2) ++ [] := by simp
  rw [happ, deserLines_parents_cont,
    deserLines_files_cont _ _ _ hfsp]
  rfl

theorem deserialize_encodeWithoutHash (c : CommitNode)
    (hm : '\n' ∉ c.message) (ht : '\n' ∉ c.timestamp)
    (hps : ∀ p ∈ c.parentHashes, '\n' ∉ p)
    (hfs : ∀ e ∈ c.fileBlobs, '\n' ∉ e.1 ∧ ' ' ∉ e.1 ∧ '\n' ∉ e.2) :
    CommitNode.deserialize (encodeWithoutHash c) =
      .ok { hash := [], parentHashes := c.parentHashes, message := c.message,
            timestamp := c.timestamp,
            fileBlobs := insertAll [] (sortEntries c.fileBlobs) } := by
  have hlines : getLines (encodeWithoutHash c) =
      (["type:commit".data,
        "message:".data ++ c.message, "timestamp:".data ++ c.timestamp]
        ++ c.parentHashes.map (fun p => "parent:".data ++ p)
        ++ (sortEntries c.fileBlobs).map
            (fun e => "file:".data ++ e.1 ++ " ".data ++ e.2)) :=
    getLines_joinLines (noNL_encodeLines hm ht hps hfs)
  show deserLines {} (getLines (encodeWithoutHash c)) = _
  rw [hlines]
  have hsl : (["type:commit".data,
      "message:".data ++ c.message, "timestamp:".data ++ c.timestamp]
      ++ c.parentHashes.map (fun p => "parent:".data ++ p)
      ++ (sortEntries c.fileBlobs).map
          (fun e => "file:".data ++ e.1 ++ " ".data ++ e.2)) =
      "type:commit".data ::
      ("message:".data ++ c.message) ::
      ("timestamp:".data ++ c.timestamp) ::
      (c.parentHashes.map (fun p => "parent:".data ++ p)
        ++ (sortEntries c.fileBlobs).map
            (fun e => "file:".data ++ e.1 ++ " ".data ++ e.2)) := rfl
  rw [hsl]
  rw [deserLines_cons_ok _ (parseLine_typeCommit _),
    deserLines_cons_ok _ (parseLine_message _ _),
    deserLines_cons_ok _ (parseLine_timestamp _ _)]
  have hfsp : ∀ e ∈ sortEntries c.fileBlobs, ' ' ∉ e.1 :=
    fun e he => (hfs e ((sortEntries_perm c.fileBlobs).subset he)).2.1
  have happ : (sortEntries c.fileBlobs).map
      (fun e => "file:".data ++ e.1 ++ " ".data ++ e.2) =
      (sortEntries c.fileBlobs).map
        (fun e => "file:".data ++ e.1 ++ " ".data ++ e.2) ++ [] := by simp
  rw [happ, deserLines_parents_cont,
    deserLines_files_cont _ _ _ hfsp]
  rfl

/-! ## Fingerprint accumulator and hexadecimal rendering -/

theorem fnv1a_lt (bs : List Nat) : fnv1a bs < 2 ^ 32 := by
  show bs.foldl fnvStep FNV_OFFSET_BASIS < 2 ^ 32
  have key : ∀ (l : List Nat) (acc : Nat), acc < 2 ^ 32 → l.foldl fnvStep acc < 2 ^ 32 := by
    intro l
    induction l with
    | nil => intro acc h; exact h
    | cons b rest ih =>
      intro acc _
      exact ih _ (Nat.mod_lt _ (by norm_num))
  exact key bs _ (by norm_num [FNV_OFFSET_BASIS])

theorem hexDigitChar_mem {d : Nat} (h : d < 16) :
    hexDigitChar d ∈ "0123456789abcdef".data := by
  interval_cases d <;> decide

theorem hexDigitChar_ne_nl {d : Nat} (h : d < 16) : hexDigitChar d ≠ '\n' := by
  interval_cases d <;> decide

theorem toHex8_length (n : Nat) : (toHex8 n).length = 8 := by
  simp [toHex8]

theorem toHex8_mem (n : Nat) : ∀ ch ∈ toHex8 n, ch ∈ "0123456789abcdef".data := by
  intro ch hch
  rcases List.mem_map.mp hch with ⟨i, _, rfl⟩
  exact hexDigitChar_mem (Nat.mod_lt _ (by norm_num))

theorem noNL_toHex8 (n : Nat) : '\n' ∉ toHex8 n := by
  intro h
  rcases List.mem_map.mp h with ⟨i, _, heq⟩
  exact hexDigitChar_ne_nl (Nat.mod_lt _ (by norm_num)) heq

theorem hexVal_hexDigitChar {d : Nat} (h : d < 16) : hexVal (hexDigitChar d) = d := by
  interval_cases d <;> decide

theorem fromHex8_toHex8 {n : Nat} (h : n < 2 ^ 32) : fromHex8 (toHex8 n) = n := by
  have e : toHex8 n = [hexDigitChar (n / 16 ^ 7 % 16), hexDigitChar (n / 16 ^ 6 % 16),
      hexDigitChar (n / 16 ^ 5 % 16), hexDigitChar (n / 16 ^ 4 % 16),
      hexDigitChar (n / 16 ^ 3 % 16), hexDigitChar (n / 16 ^ 2 % 16),
      hexDigitChar (n / 16 ^ 1 % 16), hexDigitChar (n / 16 ^ 0 % 16)] := rfl
  have hd : ∀ m : Nat, m % 16 < 16 := fun m => Nat.mod_lt _ (by norm_num)
  rw [e]
  simp only [fromHex8, List.foldl_cons, List.foldl_nil]
  rw [hexVal_hexDigitChar (hd _), hexVal_hexDigitChar (hd _), hexVal_hexDigitChar (hd _),
    hexVal_hexDigitChar (hd _), hexVal_hexDigitChar (hd _), hexVal_hexDigitChar (hd _),
    hexVal_hexDigitChar (hd _), hexVal_hexDigitChar (hd _)]
  have p7 : (16 : Nat) ^ 7 = 268435456 := by norm_num
  have p6 : (16 : Nat) ^ 6 = 16777216 := by norm_num
  have p5 : (16 : Nat) ^ 5 = 1048576 := by norm_num
  have p4 : (16 : Nat) ^ 4 = 65536 := by norm_num
  have p3 : (16 : Nat) ^ 3 = 4096 := by norm_num
  have p2 : (16 : Nat) ^ 2 = 256 := by norm_num
  have p1 : (16 : Nat) ^ 1 = 16 := by norm_num
  have p0 : (16 : Nat) ^ 0 = 1 := by norm_num
  rw [p7, p6, p5, p4, p3, p2, p1, p0]
  have h32 : n < 4294967296 := by norm_num at h; exact h
  omega

theorem toHex8_inj {m n : Nat} (hm : m < 2 ^ 32) (hn : n < 2 ^ 32)
    (h : toHex8 m = toHex8 n) : m = n := by
  have hc := congrArg fromHex8 h
  rwa [fromHex8_toHex8 hm, fromHex8_toHex8 hn] at hc

theorem calculateHash_eq_iff (a b : Str) :
    Hashing.calculateHash a = Hashing.calculateHash b ↔
      fnv1a (strBytes a) = fnv1a (strBytes b) := by
  constructor
  · intro h
    exact toHex8_inj (fnv1a_lt _) (fnv1a_lt _) h
  · intro h
    show toHex8 _ = toHex8 _
    rw [h]

/-! ## Congruences and field recovery from encodings -/

theorem hashContent_congr {c1 c2 : CommitNode} (hm : c1.message = c2.message)
    (ht : c1.timestamp = c2.timestamp) (hp : c1.parentHashes = c2.parentHashes)
    (hf : sortEntries c1.fileBlobs = sortEntries c2.fileBlobs) :
    hashContent c1 = hashContent c2 := by
  unfold hashContent hashLines
  rw [hm, ht, hp, hf]

theorem serialize_congr {c1 c2 : CommitNode} (hh : c1.hash = c2.hash)
    (hm : c1.message = c2.message) (ht : c1.timestamp = c2.timestamp)
    (hp : c1.parentHashes = c2.parentHashes)
    (hf : sortEntries c1.fileBlobs = sortEntries c2.fileBlobs) :
    c1.serialize = c2.serialize := by
  unfold CommitNode.serialize serializeLines
  rw [hh, hm, ht, hp, hf]

theorem hashContent_timestamp_inj {c1 c2 : CommitNode}
    (hm1 : '\n' ∉ c1.message) (ht1 : '\n' ∉ c1.timestamp)
    (hps1 : ∀ p ∈ c1.parentHashes, '\n' ∉ p)
    (hfs1 : ∀ e ∈ c1.fileBlobs, '\n' ∉ e.1 ∧ ' ' ∉ e.1 ∧ '\n' ∉ e.2)
    (hm2 : '\n' ∉ c2.message) (ht2 : '\n' ∉ c2.timestamp)
    (hps2 : ∀ p ∈ c2.parentHashes, '\n' ∉ p)
    (hfs2 : ∀ e ∈ c2.fileBlobs, '\n' ∉ e.1 ∧ ' ' ∉ e.1 ∧ '\n' ∉ e.2)
    (h : hashContent c1 = hashContent c2) : c1.timestamp = c2.timestamp := by
  have h1 : getLines (hashContent c1) = hashLines c1 :=
    getLines_joinLines (noNL_hashLines hm1 ht1 hps1 hfs1)
  have h2 : getLines (hashContent c2) = hashLines c2 :=
    getLines_joinLines (noNL_hashLines hm2 ht2 hps2 hfs2)
  have hl : hashLines c1 = hashLines c2 := by rw [← h1, ← h2, h]
  have hl' : "commit".data :: ("message:".data ++ c1.message) ::
      ("timestamp:".data ++ c1.timestamp) ::
      (c1.parentHashes.map (fun p => "parent:".data ++ p) ++ ["tree:".data]
        ++ (sortEntries c1.fileBlobs).map
            (fun e => "  ".data ++ e.1 ++ " ".data ++ e.2)) =
      "commit".data :: ("message:".data ++ c2.message) ::
      ("timestamp:".data ++ c2.timestamp) ::
      (c2.parentHashes.map (fun p => "parent:".data ++ p) ++ ["tree:".data]
        ++ (sortEntries c2.fileBlobs).map
            (fun e => "  ".data ++ e.1 ++ " ".data ++ e.2)) := hl
  injection hl' with e1 rest1
  injection rest1 with e2 rest2
  injection rest2 with e3 rest3
  exact List.append_cancel_left e3

/-! ## Classifying parseLine results -/

theorem all_of_dropWhile_eq_nil {p : Char → Bool} {l : Str} (h : l.dropWhile p = []) :
    ∀ x ∈ l, p x = true := by
  induction l with
  | nil => simp
  | cons c rest ih =>
    by_cases hc : p c = true
    · rw [List.dropWhile_cons, if_pos hc] at h
      intro x hx
      rcases List.mem_cons.mp hx with rfl | hx'
      · exact hc
      · exact ih h x hx'
    · have hc' : p c = false := by revert hc; cases p c <;> simp
      rw [List.dropWhile_cons] at h
      rw [hc'] at h
      simp at h

theorem parseLine_error_cases {c : CommitNode} {line : Str} {e : DeserializeError}
    (h : parseLine c line = .error e) :
    (e = .invalidFileEntry ∧ startsWith "file:".data line = true ∧ ' ' ∉ line.drop 5) ∨
      (startsWith "type:".data line = true ∧ line.drop 5 ≠ "commit".data) := by
  by_cases h1 : startsWith "type:".data line = true
  · obtain ⟨t, rfl⟩ := startsWith_iff.mp h1
    have hdrop : ("type:".data ++ t).drop 5 = t := rfl
    rw [parseLine_type] at h
    by_cases h2 : t = "commit".data
    · rw [if_pos h2] at h; exact absurd h (by simp)
    · right
      refine ⟨h1, ?_⟩
      rw [hdrop]
      exact h2
  · by_cases h2 : startsWith "hash:".data line = true
    · obtain ⟨t, rfl⟩ := startsWith_iff.mp h2
      rw [parseLine_hash] at h; exact absurd h (by simp)
    · by_cases h3 : startsWith "message:".data line = true
      · obtain ⟨t, rfl⟩ := startsWith_iff.mp h3
        rw [parseLine_message] at h; exact absurd h (by simp)
      · by_cases h4 : startsWith "timestamp:".data line = true
        · obtain ⟨t, rfl⟩ := startsWith_iff.mp h4
          rw [parseLine_timestamp] at h; exact absurd h (by simp)
        · by_cases h5 : startsWith "parent:".data line = true
          · obtain ⟨t, rfl⟩ := startsWith_iff.mp h5
            rw [parseLine_parent] at h; exact absurd h (by simp)
          · by_cases h6 : startsWith "file:".data line = true
            · obtain ⟨t, rfl⟩ := startsWith_iff.mp h6
              have hdrop : ("file:".data ++ t).drop 5 = t := rfl
              rw [parseLine_fileRaw] at h
              left
              cases hd : t.dropWhile (fun ch => ch != ' ') with
              | nil =>
                rw [hd] at h
                injection h with he
                refine ⟨he.symm, h6, ?_⟩
                rw [hdrop]
                intro hsp
                have := all_of_dropWhile_eq_nil hd ' ' hsp
                simp at this
              | cons x bh => rw [hd] at h; exact absurd h (by simp)
            · have h1' : startsWith "type:".data line = false := by simpa using h1
              have h2' : startsWith "hash:".data line = false := by simpa using h2
              have h3' : startsWith "message:".data line = false := by simpa using h3
              have h4' : startsWith "timestamp:".data line = false := by simpa using h4
              have h5' : startsWith "parent:".data line = false := by simpa using h5
              have h6' : startsWith "file:".data line = false := by simpa using h6
              rw [parseLine_ignored c h1' h2' h3' h4' h5' h6'] at h
              exact absurd h (by simp)

theorem insertAll_append (m : List (Str × Str)) (a b : List (Str × Str)) :
    insertAll m (a ++ b) = insertAll (insertAll m a) b := by
  unfold insertAll
  rw [List.foldl_append]

theorem collectFileEntries_cons (l : Str) (rest : List Str) :
    collectFileEntries (l :: rest) =
      collectFileEntries [l] ++ collectFileEntries rest := by
  cases hfe : fileEntryOf l <;>
    simp [collectFileEntries, List.filterMap_cons, hfe]

theorem parseLine_ok_fileBlobs {c c' : CommitNode} {line : Str}
    (h : parseLine c line = .ok c') :
    c'.fileBlobs = insertAll c.fileBlobs (collectFileEntries [line]) := by
  by_cases h6 : startsWith "file:".data line = true
  · obtain ⟨t, rfl⟩ := startsWith_iff.mp h6
    have hdrop : ("file:".data ++ t).drop 5 = t := rfl
    rw [parseLine_fileRaw] at h
    cases hd : t.dropWhile (fun ch => ch != ' ') with
    | nil => rw [hd] at h; exact absurd h (by simp)
    | cons x bh =>
      rw [hd] at h
      injection h with hc
      subst hc
      show mapInsert c.fileBlobs (t.takeWhile (fun ch => ch != ' ')) bh = _
      simp only [collectFileEntries, List.filterMap_cons, fileEntryOf, h6, hdrop, hd, insertAll]
      rfl
  · have hnone : fileEntryOf line = none := by
      have h6' : startsWith "file:".data line = false := by simpa using h6
      simp [fileEntryOf, h6']
    have hfb : c'.fileBlobs = c.fileBlobs := by
      by_cases h1 : startsWith "type:".data line = true
      · obtain ⟨t, rfl⟩ := startsWith_iff.mp h1
        rw [parseLine_type] at h
        by_cases h2 : t = "commit".data
        · rw [if_pos h2] at h; injection h with hc; rw [← hc]
        · rw [if_neg h2] at h; exact absurd h (by simp)
      · by_cases h2 : startsWith "hash:".data line = true
        · obtain ⟨t, rfl⟩ := startsWith_iff.mp h2
          rw [parseLine_hash] at h; injection h with hc; rw [← hc]
        · by_cases h3 : startsWith "message:".data line = true
          · obtain ⟨t, rfl⟩ := startsWith_iff.mp h3
            rw [parseLine_message] at h; injection h with hc; rw [← hc]
          · by_cases h4 : startsWith "timestamp:".data line = true
            · obtain ⟨t, rfl⟩ := startsWith_iff.mp h4
              rw [parseLine_timestamp] at h; injection h with hc; rw [← hc]
            · by_cases h5 : startsWith "parent:".data line = true
              · obtain ⟨t, rfl⟩ := startsWith_iff.mp h5
                rw [parseLine_parent] at h; injection h with hc; rw [← hc]
              · have h1' : startsWith "type:".data line = false := by simpa using h1
                have h2' : startsWith "hash:".data line = false := by simpa using h2
                have h3' : startsWith "message:".data line = false := by simpa using h3
                have h4' : startsWith "timestamp:".data line = false := by simpa using h4
                have h5' : startsWith "parent:".data line = false := by simpa using h5
                have h6' : startsWith "file:".data line = false := by simpa using h6
                rw [parseLine_ignored c h1' h2' h3' h4' h5' h6'] at h
                injection h with hc; rw [← hc]
    rw [hfb]
    simp [collectFileEntries, List.filterMap_cons, hnone, insertAll]

theorem deserLines_badfile (lines : List Str) : ∀ c : CommitNode,
    (∀ line ∈ lines, startsWith "type:".data line = true → line.drop 5 = "commit".data) →
    (∃ line ∈ lines, startsWith "file:".data line = true ∧ ' ' ∉ line.drop 5) →
    deserLines c lines = .error .invalidFileEntry := by
  induction lines with
  | nil =>
    intro c _ hbad
    simp at hbad
  | cons l rest ih =>
    intro c htype hbad
    by_cases hb : startsWith "file:".data l = true ∧ ' ' ∉ l.drop 5
    · exact deserLines_cons_err _ (parseLine_badFile c hb.1 hb.2)
    · have hbad' : ∃ line ∈ rest, startsWith "file:".data line = true ∧ ' ' ∉ line.drop 5 := by
        rcases hbad with ⟨line, hmem, hprop⟩
        rcases List.mem_cons.mp hmem with rfl | hmem'
        · exact absurd hprop hb
        · exact ⟨line, hmem', hprop⟩
      cases hp : parseLine c l with
      | ok c1 =>
        rw [deserLines_cons_ok _ hp]
        exact ih c1 (fun x hx => htype x (List.mem_cons_of_mem l hx)) hbad'
      | error e =>
        have he : e = DeserializeError.invalidFileEntry := by
          rcases parseLine_error_cases hp with ⟨he, _, _⟩ | ⟨hty, hne⟩
          · exact he
          · exact absurd (htype l (List.mem_cons_self l rest) hty) hne
        rw [he] at hp
        exact deserLines_cons_err _ hp

theorem deserLines_ok_of_guards (lines : List Str) : ∀ c : CommitNode,
    (∀ line ∈ lines, startsWith "type:".data line = true → line.drop 5 = "commit".data) →
    (∀ line ∈ lines, startsWith "file:".data line = true → ' ' ∈ line.drop 5) →
    ∃ c', deserLines c lines = .ok c' ∧
      c'.fileBlobs = insertAll c.fileBlobs (collectFileEntries lines) := by
  induction lines with
  | nil =>
    intro c _ _
    exact ⟨c, rfl, rfl⟩
  | cons l rest ih =>
    intro c htype hfile
    cases hp : parseLine c l with
    | error e =>
      exfalso
      rcases parseLine_error_cases hp with ⟨_, hfl, hnsp⟩ | ⟨hty, hne⟩
      · exact hnsp (hfile l (List.mem_cons_self l rest) hfl)
      · exact hne (htype l (List.mem_cons_self l rest) hty)
    | ok c1 =>
      obtain ⟨c', hdes, hfb⟩ := ih c1
        (fun x hx => htype x (List.mem_cons_of_mem l hx))
        (fun x hx => hfile x (List.mem_cons_of_mem l hx))
      refine ⟨c', ?_, ?_⟩
      · rw [deserLines_cons_ok _ hp]
        exact hdes
      · rw [hfb, parseLine_ok_fileBlobs hp, collectFileEntries_cons l rest,
          insertAll_append]

theorem insertAll_nil_of_nodup {es : List (Str × Str)} (hnd : (es.map Prod.fst).Nodup) :
    insertAll [] es = es := by
  have h : insertAll [] es = [] ++ es :=
    insertAll_disjoint hnd (fun e _ => by simp)
  simpa using h

theorem keys_nodup_sortEntries {fb : List (Str × Str)} (hnd : (fb.map Prod.fst).Nodup) :
    ((sortEntries fb).map Prod.fst).Nodup :=
  ((sortEntries_perm fb).map Prod.fst).nodup_iff.mpr hnd

/-! ## The claims -/

/-- C1 counterexample: for the well-formed record `oneFileCommit` the
code's hash-input encoding (`hashContent`, the string fed to the
fingerprint) is NOT the stored form minus the `hash:` line, and decoding
it loses the snapshot entirely: the decoder ignores the `commit` header,
the `tree:` header and the indented `  path blob` entries, so the
reconstructed snapshot is empty and not set-equal to the original. -/
theorem C1_counterexample :
    wellFormed oneFileCommit ∧
    encodeWithoutHash oneFileCommit ≠ hashContent oneFileCommit ∧
    CommitNode.deserialize (hashContent oneFileCommit) =
      .ok { hash := [], parentHashes := [], message := "m".data,
            timestamp := "t".data, fileBlobs := [] } ∧
    ("a".data, "b".data) ∈ oneFileCommit.fileBlobs := by
  refine ⟨by decide, by decide, by decide, by decide⟩

/-- C1 (amended): for every well-formed commit record, decoding the
STORED encoding with only the `hash:` line removed reconstructs message,
timestamp and parent identifiers exactly (order preserved) and the
snapshot up to set equality. (The claim as stated is false because the
code's hash-input encoding differs from the stored form beyond the
`hash:` line and decoding it yields an empty snapshot.) -/
theorem C1_roundTrip (c : CommitNode) (hwf : wellFormed c) :
    ∃ c', CommitNode.deserialize (encodeWithoutHash c) = .ok c' ∧
      c'.message = c.message ∧ c'.timestamp = c.timestamp ∧
      c'.parentHashes = c.parentHashes ∧
      (∀ e, e ∈ c'.fileBlobs ↔ e ∈ c.fileBlobs) := by
  obtain ⟨hm, ht, hps, hfs, hnd⟩ := hwf
  refine ⟨_, deserialize_encodeWithoutHash c hm ht hps hfs, rfl, rfl, rfl, ?_⟩
  intro e
  show e ∈ insertAll [] (sortEntries c.fileBlobs) ↔ e ∈ c.fileBlobs
  rw [insertAll_nil_of_nodup (keys_nodup_sortEntries hnd)]
  exact (sortEntries_perm c.fileBlobs).mem_iff

/-- Witness for C1: the amended round trip evaluated on a concrete
two-parent, two-file record. -/
theorem C1_roundTrip_witness :
    wellFormed twoFileCommit ∧
    (∃ c', CommitNode.deserialize (encodeWithoutHash twoFileCommit) = .ok c' ∧
      c'.message = twoFileCommit.message ∧ c'.timestamp = twoFileCommit.timestamp ∧
      c'.parentHashes = twoFileCommit.parentHashes ∧
      (∀ e, e ∈ c'.fileBlobs ↔ e ∈ twoFileCommit.fileBlobs)) :=
  ⟨by decide, C1_roundTrip twoFileCommit (by decide)⟩

/-- C2 (confirmed): constructing a commit with message `init`, no
parents, the single snapshot entry `a.txt ↦ deadbeef` and the clock
fixed to `2024-01-01T00:00:00` feeds exactly the spec's literal string
to the fingerprint, and the resulting identifier equals its
8-hex-digit FNV-1a-32 fingerprint, `45a12172`. -/
theorem C2_fixedVector :
    hashContent initCommit =
      "commit\nmessage:init\ntimestamp:2024-01-01T00:00:00\ntree:\n  a.txt deadbeef\n".data ∧
    initCommit.hash =
      Hashing.calculateHash
        "commit\nmessage:init\ntimestamp:2024-01-01T00:00:00\ntree:\n  a.txt deadbeef\n".data ∧
    initCommit.hash = "45a12172".data := by
  refine ⟨by decide, by decide, by decide⟩

/-- C3 (confirmed): every constructor-produced record stores as its
identifier the fingerprint of its own hash-input encoding, and — for
records obeying the grammar's field rules (no embedded newlines, no
space in a path, distinct paths) — recomputing the fingerprint over the
hash-input encoding of `deserialize (serialize r)` gives back exactly
the `hash:` field embedded in `serialize r`. -/
theorem C3_hashInvariant (m : Str) (ps : List Str) (fb : List (Str × Str)) (ts : Str)
    (hwf : wellFormed (mkCommitNode m ps fb ts)) :
    (mkCommitNode m ps fb ts).hash =
      Hashing.calculateHash (hashContent (mkCommitNode m ps fb ts)) ∧
    ∀ c', CommitNode.deserialize (mkCommitNode m ps fb ts).serialize = .ok c' →
      Hashing.calculateHash (hashContent c') = (mkCommitNode m ps fb ts).hash := by
  obtain ⟨hm, ht, hps, hfs, hnd⟩ := hwf
  refine ⟨rfl, ?_⟩
  intro c' hc'
  have hh : '\n' ∉ (mkCommitNode m ps fb ts).hash := noNL_toHex8 _
  have hdes := deserialize_serialize (mkCommitNode m ps fb ts) hm ht hps hfs hh
  rw [hc'] at hdes
  injection hdes with hcc
  subst hcc
  have hsort : sortEntries (insertAll [] (sortEntries (mkCommitNode m ps fb ts).fileBlobs)) =
      sortEntries (mkCommitNode m ps fb ts).fileBlobs := by
    rw [insertAll_nil_of_nodup (keys_nodup_sortEntries hnd)]
    exact sortEntries_sortEntries hnd
  have hcontent : hashContent
      { hash := (mkCommitNode m ps fb ts).hash,
        parentHashes := (mkCommitNode m ps fb ts).parentHashes,
        message := (mkCommitNode m ps fb ts).message,
        timestamp := (mkCommitNode m ps fb ts).timestamp,
        fileBlobs := insertAll [] (sortEntries (mkCommitNode m ps fb ts).fileBlobs) } =
      hashContent (mkCommitNode m ps fb ts) :=
    hashContent_congr rfl rfl rfl hsort
  rw [hcontent]
  rfl

/-- Witness for C3 at a concrete two-parent, two-file instance. -/
theorem C3_hashInvariant_witness :
    wellFormed (mkCommitNode "hello".data ["p1".data, "p2".data]
      [("b.txt".data, "22".data), ("a.txt".data, "11".data)] "2024-02-02T10:20:30".data) ∧
    ((mkCommitNode "hello".data ["p1".data, "p2".data]
        [("b.txt".data, "22".data), ("a.txt".data, "11".data)] "2024-02-02T10:20:30".data).hash =
      Hashing.calculateHash (hashContent (mkCommitNode "hello".data ["p1".data, "p2".data]
        [("b.txt".data, "22".data), ("a.txt".data, "11".data)] "2024-02-02T10:20:30".data)) ∧
     ∀ c', CommitNode.deserialize (mkCommitNode "hello".data ["p1".data, "p2".data]
        [("b.txt".data, "22".data), ("a.txt".data, "11".data)]
        "2024-02-02T10:20:30".data).serialize = .ok c' →
      Hashing.calculateHash (hashContent c') =
        (mkCommitNode "hello".data ["p1".data, "p2".data]
          [("b.txt".data, "22".data), ("a.txt".data, "11".data)]
          "2024-02-02T10:20:30".data).hash) :=
  ⟨by decide, C3_hashInvariant "hello".data ["p1".data, "p2".data]
    [("b.txt".data, "22".data), ("a.txt".data, "11".data)] "2024-02-02T10:20:30".data
    (by decide)⟩

/-- C4 (confirmed): for a fixed set of snapshot entries with distinct
paths, building the map by inserting the entries in any two orders
yields byte-identical stored and hash-input encodings — entries are
sorted ascending by path before emission — and hence equal identifiers. -/
theorem C4_orderIndependence (m ts : Str) (ps : List Str) (es1 es2 : List (Str × Str))
    (hperm : List.Perm es1 es2) (hnd : (es1.map Prod.fst).Nodup) :
    (mkCommitNode m ps (insertAll [] es1) ts).serialize =
      (mkCommitNode m ps (insertAll [] es2) ts).serialize ∧
    hashContent (mkCommitNode m ps (insertAll [] es1) ts) =
      hashContent (mkCommitNode m ps (insertAll [] es2) ts) ∧
    (mkCommitNode m ps (insertAll [] es1) ts).hash =
      (mkCommitNode m ps (insertAll [] es2) ts).hash := by
  have hnd2 : (es2.map Prod.fst).Nodup := (hperm.map Prod.fst).nodup_iff.mp hnd
  have h1 : insertAll [] es1 = es1 := insertAll_nil_of_nodup hnd
  have h2 : insertAll [] es2 = es2 := insertAll_nil_of_nodup hnd2
  have hsort : sortEntries (mkCommitNode m ps (insertAll [] es1) ts).fileBlobs =
      sortEntries (mkCommitNode m ps (insertAll [] es2) ts).fileBlobs := by
    show sortEntries (insertAll [] es1) = sortEntries (insertAll [] es2)
    rw [h1, h2]
    exact sortEntries_eq_of_perm hperm hnd
  have hcontent : hashContent (mkCommitNode m ps (insertAll [] es1) ts) =
      hashContent (mkCommitNode m ps (insertAll [] es2) ts) :=
    hashContent_congr rfl rfl rfl hsort
  have hhash : (mkCommitNode m ps (insertAll [] es1) ts).hash =
      (mkCommitNode m ps (insertAll [] es2) ts).hash := by
    show Hashing.calculateHash (hashContent (mkCommitNode m ps (insertAll [] es1) ts)) =
      Hashing.calculateHash (hashContent (mkCommitNode m ps (insertAll [] es2) ts))
    rw [hcontent]
  exact ⟨serialize_congr hhash rfl rfl rfl hsort, hcontent, hhash⟩

/-- Witness for C4: two insertion orders of the same two entries. -/
theorem C4_orderIndependence_witness :
    List.Perm [("b".data, "2".data), ("a".data, "1".data)]
      [("a".data, "1".data), ("b".data, "2".data)] ∧
    (([("b".data, "2".data), ("a".data, "1".data)] :
        List (Str × Str)).map Prod.fst).Nodup ∧
    ((mkCommitNode "m".data [] (insertAll []
        [("b".data, "2".data), ("a".data, "1".data)]) "t".data).serialize =
      (mkCommitNode "m".data [] (insertAll []
        [("a".data, "1".data), ("b".data, "2".data)]) "t".data).serialize ∧
     hashContent (mkCommitNode "m".data [] (insertAll []
        [("b".data, "2".data), ("a".data, "1".data)]) "t".data) =
      hashContent (mkCommitNode "m".data [] (insertAll []
        [("a".data, "1".data), ("b".data, "2".data)]) "t".data) ∧
     (mkCommitNode "m".data [] (insertAll []
        [("b".data, "2".data), ("a".data, "1".data)]) "t".data).hash =
      (mkCommitNode "m".data [] (insertAll []
        [("a".data, "1".data), ("b".data, "2".data)]) "t".data).hash) :=
  ⟨by decide, by decide,
    C4_orderIndependence "m".data "t".data []
      [("b".data, "2".data), ("a".data, "1".data)]
      [("a".data, "1".data), ("b".data, "2".data)] (by decide) (by decide)⟩

/-- C5 (confirmed): the fingerprint is pure and deterministic, computes
exactly the 32-bit FNV-1a accumulator — offset basis 2166136261, prime
16777619, XOR with the byte then multiply, reduced mod 2^32 — and is
rendered as exactly eight characters of the lowercase hexadecimal
alphabet (zero padding included, since short values still produce eight
digits). -/
theorem C5_fingerprint (b1 b2 : Str) (h : b1 = b2) :
    Hashing.calculateHash b1 = Hashing.calculateHash b2 ∧
    Hashing.calculateHash b1 =
      toHex8 ((strBytes b1).foldl
        (fun acc byte => ((acc ^^^ byte) * 16777619) % 2 ^ 32) 2166136261) ∧
    (Hashing.calculateHash b1).length = 8 ∧
    ∀ ch ∈ Hashing.calculateHash b1, ch ∈ "0123456789abcdef".data := by
  subst h
  exact ⟨rfl, rfl, toHex8_length _, toHex8_mem _⟩

/-- Witness for C5 at the byte string of `abc`. -/
theorem C5_fingerprint_witness :
    "abc".data = "abc".data ∧
    (Hashing.calculateHash "abc".data = Hashing.calculateHash "abc".data ∧
     Hashing.calculateHash "abc".data =
       toHex8 ((strBytes "abc".data).foldl
         (fun acc byte => ((acc ^^^ byte) * 16777619) % 2 ^ 32) 2166136261) ∧
     (Hashing.calculateHash "abc".data).length = 8 ∧
     ∀ ch ∈ Hashing.calculateHash "abc".data, ch ∈ "0123456789abcdef".data) :=
  ⟨rfl, C5_fingerprint "abc".data "abc".data rfl⟩

/-- C6 (code bug): on an input describing an existing regular file that
opens successfully, reports three stored bytes, and whose read produced
zero bytes, `readFromFile` returns success (`true`) with the empty
content — the short read is only a stderr warning, not a failure result,
whereas the claim (and spec §7) require an IOError. -/
theorem C6_shortReadIsNotFailure :
    FileUtils.readFromFile
      { pathExists := true, isRegularFile := true, openOk := true,
        bytesRead := [], reportedSize := 3 } = (true, []) ∧
    ([] : Str).length < 3 :=
  ⟨rfl, by norm_num⟩

/-- C7 counterexample: the input `type:x\nfile:ab\n` contains a `file:`
line with no separating space, yet decode fails with the type-mismatch
error (FormatError), not the invalid-file-entry ParseError: the
malformed `type:` line throws first. -/
theorem C7_counterexample :
    (∃ line ∈ getLines "type:x\nfile:ab\n".data,
      startsWith "file:".data line = true ∧ ' ' ∉ line.drop 5) ∧
    CommitNode.deserialize "type:x\nfile:ab\n".data =
      .error (.typeMismatch "x".data) ∧
    DeserializeError.typeMismatch "x".data ≠ .invalidFileEntry := by
  refine ⟨by decide, by decide, by decide⟩

/-- C7 (amended): on any input containing a `file:` line with no
separating space, provided every `type:` line carries the value
`commit` (so no FormatError can preempt it), decode fails with the
invalid-file-entry ParseError instead of returning a record. -/
theorem C7_parseError (inp : Str)
    (htype : ∀ line ∈ getLines inp, startsWith "type:".data line = true →
      line.drop 5 = "commit".data)
    (hbad : ∃ line ∈ getLines inp,
      startsWith "file:".data line = true ∧ ' ' ∉ line.drop 5) :
    CommitNode.deserialize inp = .error .invalidFileEntry :=
  deserLines_badfile (getLines inp) {} htype hbad

/-- Witness for C7 on the input `file:ab\n`. -/
theorem C7_parseError_witness :
    (∀ line ∈ getLines "file:ab\n".data, startsWith "type:".data line = true →
      line.drop 5 = "commit".data) ∧
    (∃ line ∈ getLines "file:ab\n".data,
      startsWith "file:".data line = true ∧ ' ' ∉ line.drop 5) ∧
    CommitNode.deserialize "file:ab\n".data = .error .invalidFileEntry :=
  ⟨by decide, by decide, C7_parseError "file:ab\n".data (by decide) (by decide)⟩

/-- C8 counterexample: `tsCommitA` and `tsCommitB` share message,
parent list and snapshot, differ in timestamp, and still receive the
same identifier — a genuine FNV-1a-32 collision (both hash to
`b64c71bc`), so differing timestamps do NOT always give different
identifiers. -/
theorem C8_counterexample :
    tsCommitA.message = tsCommitB.message ∧
    tsCommitA.parentHashes = tsCommitB.parentHashes ∧
    tsCommitA.fileBlobs = tsCommitB.fileBlobs ∧
    tsCommitA.timestamp ≠ tsCommitB.timestamp ∧
    tsCommitA.hash = tsCommitB.hash := by
  refine ⟨rfl, rfl, rfl, by decide, by decide⟩

/-- C8 (amended): two commits with identical message, parents and
snapshot but different timestamps always have DIFFERENT hash-input
encodings, and their identifiers differ exactly when the 32-bit
FNV-1a values of those encodings differ — identifier collisions
between distinct timestamps exist, so the identifiers are not always
different. -/
theorem C8_timestampSensitivity (m ts1 ts2 : Str) (ps : List Str)
    (fb : List (Str × Str))
    (h1 : wellFormed (mkCommitNode m ps fb ts1))
    (h2 : wellFormed (mkCommitNode m ps fb ts2))
    (hts : ts1 ≠ ts2) :
    hashContent (mkCommitNode m ps fb ts1) ≠ hashContent (mkCommitNode m ps fb ts2) ∧
    ((mkCommitNode m ps fb ts1).hash = (mkCommitNode m ps fb ts2).hash ↔
      fnv1a (strBytes (hashContent (mkCommitNode m ps fb ts1))) =
        fnv1a (strBytes (hashContent (mkCommitNode m ps fb ts2)))) := by
  obtain ⟨hm1, ht1, hps1, hfs1, _⟩ := h1
  obtain ⟨hm2, ht2, hps2, hfs2, _⟩ := h2
  refine ⟨?_, ?_⟩
  · intro heq
    exact hts (hashContent_timestamp_inj hm1 ht1 hps1 hfs1 hm2 ht2 hps2 hfs2 heq)
  · exact calculateHash_eq_iff _ _

/-- Witness for C8 at timestamps `t1` and `t2`. -/
theorem C8_timestampSensitivity_witness :
    wellFormed (mkCommitNode "m".data [] [] "t1".data) ∧
    wellFormed (mkCommitNode "m".data [] [] "t2".data) ∧
    "t1".data ≠ "t2".data ∧
    (hashContent (mkCommitNode "m".data [] [] "t1".data) ≠
        hashContent (mkCommitNode "m".data [] [] "t2".data) ∧
      ((mkCommitNode "m".data [] [] "t1".data).hash =
          (mkCommitNode "m".data [] [] "t2".data).hash ↔
        fnv1a (strBytes (hashContent (mkCommitNode "m".data [] [] "t1".data))) =
          fnv1a (strBytes (hashContent (mkCommitNode "m".data [] [] "t2".data))))) :=
  ⟨by decide, by decide, by decide,
    C8_timestampSensitivity "m".data "t1".data "t2".data [] []
      (by decide) (by decide) (by decide)⟩

/-- C10 counterexample: the input `type:x\nfile:a 1\nfile:a 2\n`
contains two `file:` lines with the same path, yet deserialize throws
on the malformed `type:` line instead of succeeding — "succeeds without
error" does not hold for every such input. -/
theorem C10_counterexample :
    (collectFileEntries (getLines "type:x\nfile:a 1\nfile:a 2\n".data)).map Prod.fst =
      ["a".data, "a".data] ∧
    CommitNode.deserialize "type:x\nfile:a 1\nfile:a 2\n".data =
      .error (.typeMismatch "x".data) :=
  ⟨by decide, by decide⟩

/-- C10 (amended): on any input whose `type:` lines all carry `commit`
and whose `file:` lines all contain a space — containing multiple
`file:` lines with the same path — deserialize succeeds, looking up any
path in the resulting snapshot returns the blob of the LAST `file:`
line for that path, and the snapshot's paths are pairwise distinct. -/
theorem C10_lastWins (inp : Str)
    (htype : ∀ line ∈ getLines inp, startsWith "type:".data line = true →
      line.drop 5 = "commit".data)
    (hfile : ∀ line ∈ getLines inp, startsWith "file:".data line = true →
      ' ' ∈ line.drop 5)
    (_hdup : ¬ ((collectFileEntries (getLines inp)).map Prod.fst).Nodup) :
    ∃ c', CommitNode.deserialize inp = .ok c' ∧
      (∀ k, mapLookup c'.fileBlobs k =
        lastValFrom none (collectFileEntries (getLines inp)) k) ∧
      (c'.fileBlobs.map Prod.fst).Nodup := by
  obtain ⟨c', hdes, hfb⟩ := deserLines_ok_of_guards (getLines inp) {} htype hfile
  refine ⟨c', hdes, ?_, ?_⟩
  · intro k
    rw [hfb, mapLookup_insertAll]
    rfl
  · rw [hfb]
    exact keys_nodup_insertAll (by decide)

/-- Witness for C10 on `type:commit\nfile:a 1\nfile:a 2\n`. -/
theorem C10_lastWins_witness :
    (∀ line ∈ getLines "type:commit\nfile:a 1\nfile:a 2\n".data,
      startsWith "type:".data line = true → line.drop 5 = "commit".data) ∧
    (∀ line ∈ getLines "type:commit\nfile:a 1\nfile:a 2\n".data,
      startsWith "file:".data line = true → ' ' ∈ line.drop 5) ∧
    (¬ ((collectFileEntries
        (getLines "type:commit\nfile:a 1\nfile:a 2\n".data)).map Prod.fst).Nodup) ∧
    (∃ c', CommitNode.deserialize "type:commit\nfile:a 1\nfile:a 2\n".data = .ok c' ∧
      (∀ k, mapLookup c'.fileBlobs k =
        lastValFrom none (collectFileEntries
          (getLines "type:commit\nfile:a 1\nfile:a 2\n".data)) k) ∧
      (c'.fileBlobs.map Prod.fst).Nodup) :=
  ⟨by decide, by decide, by decide,
    C10_lastWins "type:commit\nfile:a 1\nfile:a 2\n".data
      (by decide) (by decide) (by decide)⟩

/-- C9 counterexample: for the message `a\nmessage:b` construction and
serialization succeed, but deserializing the serialized form yields the
message `b` — the decoder's last `message:` line wins — not the portion
`a` before the first newline, refuting the claim as stated. -/
theorem C9_counterexample :
    "a\nmessage:b".data.takeWhile (fun ch => ch != '\n') = "a".data ∧
    (CommitNode.deserialize nlCommit.serialize).toOption.map CommitNode.message =
      some "b".data ∧
    some "b".data ≠ some ("a".data) := by
  refine ⟨by decide, by decide, by decide⟩

/-- C9 (amended): if the message contains a newline, construction and
serialization still succeed with the message emitted raw (no escaping,
no error), and — provided no newline-separated segment of the message
after the first starts with one of the six recognized line prefixes —
deserializing the serialized form succeeds and yields a record whose
message is exactly the portion of the original message before the first
newline. -/
theorem C9_newlineMessage (m ts : Str) (ps : List Str) (fb : List (Str × Str))
    (_hnl : '\n' ∈ m)
    (hguard : ∀ seg ∈ (splitNL m).tail, ∀ pre ∈ knownHeads, startsWith pre seg = false)
    (ht : '\n' ∉ ts) (hps : ∀ p ∈ ps, '\n' ∉ p)
    (hfs : ∀ e ∈ fb, '\n' ∉ e.1 ∧ ' ' ∉ e.1 ∧ '\n' ∉ e.2) :
    (∃ pre post, (mkCommitNode m ps fb ts).serialize =
        pre ++ ("message:".data ++ m ++ ['\n']) ++ post) ∧
    ∃ c', CommitNode.deserialize (mkCommitNode m ps fb ts).serialize = .ok c' ∧
      c'.message = m.takeWhile (fun ch => ch != '\n') := by
  obtain ⟨ss, hss⟩ := splitNL_head m
  have hser : (mkCommitNode m ps fb ts).serialize =
      joinLines (["type:commit".data, "hash:".data ++ (mkCommitNode m ps fb ts).hash] ++
        ["message:".data ++ m] ++
        (["timestamp:".data ++ ts] ++ ps.map (fun p => "parent:".data ++ p) ++
          (sortEntries fb).map (fun e => "file:".data ++ e.1 ++ " ".data ++ e.2))) := rfl
  constructor
  · refine ⟨joinLines ["type:commit".data,
        "hash:".data ++ (mkCommitNode m ps fb ts).hash],
      joinLines (["timestamp:".data ++ ts] ++ ps.map (fun p => "parent:".data ++ p) ++
        (sortEntries fb).map (fun e => "file:".data ++ e.1 ++ " ".data ++ e.2)), ?_⟩
    rw [hser, joinLines_append, joinLines_append]
    simp [joinLines, List.append_assoc]
  · have hmsg : ("message:".data ++ m) ++ ['\n'] =
        joinLines (("message:".data ++ m.takeWhile (fun ch => ch != '\n')) :: ss) := by
      rw [joinLines_cons, List.append_assoc, ← joinLines_splitNL m, hss, joinLines_cons,
        ← List.append_assoc]
    have hone : joinLines ["message:".data ++ m] = ("message:".data ++ m) ++ ['\n'] := by
      simp [joinLines]
    have hserLines : (mkCommitNode m ps fb ts).serialize =
        joinLines (["type:commit".data, "hash:".data ++ (mkCommitNode m ps fb ts).hash] ++
          (("message:".data ++ m.takeWhile (fun ch => ch != '\n')) :: ss) ++
          (["timestamp:".data ++ ts] ++ ps.map (fun p => "parent:".data ++ p) ++
            (sortEntries fb).map (fun e => "file:".data ++ e.1 ++ " ".data ++ e.2))) := by
      rw [hser]
      simp only [joinLines_append, hone, hmsg]
    have hlinesNoNL : ∀ l ∈ (["type:commit".data,
        "hash:".data ++ (mkCommitNode m ps fb ts).hash] ++
        (("message:".data ++ m.takeWhile (fun ch => ch != '\n')) :: ss) ++
        (["timestamp:".data ++ ts] ++ ps.map (fun p => "parent:".data ++ p) ++
          (sortEntries fb).map (fun e => "file:".data ++ e.1 ++ " ".data ++ e.2))),
        '\n' ∉ l := by
      intro l hl
      rcases List.mem_append.mp hl with h1 | h2
      · rcases List.mem_append.mp h1 with h0 | hseg
        · simp only [List.mem_cons, List.not_mem_nil, or_false] at h0
          rcases h0 with rfl | rfl
          · decide
          · exact noNL_append (by decide) (noNL_toHex8 _)
        · rcases List.mem_cons.mp hseg with rfl | hseg'
          · refine noNL_append (by decide) ?_
            have hmem : m.takeWhile (fun ch => ch != '\n') ∈ splitNL m := by
              rw [hss]; exact List.mem_cons_self _ _
            exact splitNL_noNL m _ hmem
          · have hmem : l ∈ splitNL m := by
              rw [hss]; exact List.mem_cons_of_mem _ hseg'
            exact splitNL_noNL m l hmem
      · rcases List.mem_append.mp h2 with h3 | h6
        · rcases List.mem_append.mp h3 with h4 | h5
          · simp only [List.mem_cons, List.not_mem_nil, or_false] at h4
            rcases h4 with rfl
            exact noNL_append (by decide) ht
          · rcases List.mem_map.mp h5 with ⟨p, hp, rfl⟩
            exact noNL_append (by decide) (hps p hp)
        · rcases List.mem_map.mp h6 with ⟨e, he, rfl⟩
          have he' := hfs e ((sortEntries_perm fb).subset he)
          exact noNL_append (noNL_append (noNL_append (by decide) he'.1) (by decide)) he'.2.2
    have hgl : getLines (mkCommitNode m ps fb ts).serialize =
        (["type:commit".data, "hash:".data ++ (mkCommitNode m ps fb ts).hash] ++
          (("message:".data ++ m.takeWhile (fun ch => ch != '\n')) :: ss) ++
          (["timestamp:".data ++ ts] ++ ps.map (fun p => "parent:".data ++ p) ++
            (sortEntries fb).map (fun e => "file:".data ++ e.1 ++ " ".data ++ e.2))) := by
      rw [hserLines]
      exact getLines_joinLines hlinesNoNL
    have hig : ∀ l ∈ ss, startsWith "type:".data l = false ∧
        startsWith "hash:".data l = false ∧ startsWith "message:".data l = false ∧
        startsWith "timestamp:".data l = false ∧ startsWith "parent:".data l = false ∧
        startsWith "file:".data l = false := by
      intro seg hseg
      have hmem : seg ∈ (splitNL m).tail := by rw [hss]; exact hseg
      exact ⟨hguard seg hmem _ (by decide), hguard seg hmem _ (by decide),
        hguard seg hmem _ (by decide), hguard seg hmem _ (by decide),
        hguard seg hmem _ (by decide), hguard seg hmem _ (by decide)⟩
    have hsp : ∀ e ∈ sortEntries fb, ' ' ∉ e.1 :=
      fun e he => (hfs e ((sortEntries_perm fb).subset he)).2.1
    have hchain : deserLines {} (getLines (mkCommitNode m ps fb ts).serialize) =
        .ok { hash := (mkCommitNode m ps fb ts).hash, parentHashes := ps,
              message := m.takeWhile (fun ch => ch != '\n'), timestamp := ts,
              fileBlobs := insertAll [] (sortEntries fb) } := by
      rw [hgl]
      have hstruct : (["type:commit".data,
          "hash:".data ++ (mkCommitNode m ps fb ts).hash] ++
          (("message:".data ++ m.takeWhile (fun ch => ch != '\n')) :: ss) ++
          (["timestamp:".data ++ ts] ++ ps.map (fun p => "parent:".data ++ p) ++
            (sortEntries fb).map (fun e => "file:".data ++ e.1 ++ " ".data ++ e.2))) =
          "type:commit".data ::
          ("hash:".data ++ (mkCommitNode m ps fb ts).hash) ::
          ("message:".data ++ m.takeWhile (fun ch => ch != '\n')) ::
          (ss ++ (["timestamp:".data ++ ts] ++ ps.map (fun p => "parent:".data ++ p) ++
            (sortEntries fb).map (fun e => "file:".data ++ e.1 ++ " ".data ++ e.2))) := rfl
      rw [hstruct]
      rw [deserLines_cons_ok _ (parseLine_typeCommit _),
        deserLines_cons_ok _ (parseLine_hash _ _),
        deserLines_cons_ok _ (parseLine_message _ _)]
      rw [deserLines_ignored_cont ss _ _ hig]
      have hstruct2 : (["timestamp:".data ++ ts] ++
          ps.map (fun p => "parent:".data ++ p) ++
          (sortEntries fb).map (fun e => "file:".data ++ e.1 ++ " ".data ++ e.2)) =
          ("timestamp:".data ++ ts) :: (ps.map (fun p => "parent:".data ++ p) ++
            (sortEntries fb).map (fun e => "file:".data ++ e.1 ++ " ".data ++ e.2)) := rfl
      rw [hstruct2, deserLines_cons_ok _ (parseLine_timestamp _ _)]
      have happ : (sortEntries fb).map (fun e => "file:".data ++ e.1 ++ " ".data ++ e.2) =
          (sortEntries fb).map (fun e => "file:".data ++ e.1 ++ " ".data ++ e.2) ++ [] := by
        simp
      rw [happ, deserLines_parents_cont, deserLines_files_cont _ _ _ hsp]
      rfl
    exact ⟨_, hchain, rfl⟩

/-- Witness for C9: the message `a\nxyz` (the segment after the newline
starts with no recognized prefix). -/
theorem C9_newlineMessage_witness :
    '\n' ∈ "a\nxyz".data ∧
    (∀ seg ∈ (splitNL "a\nxyz".data).tail, ∀ pre ∈ knownHeads,
      startsWith pre seg = false) ∧
    ((∃ pre post, (mkCommitNode "a\nxyz".data [] [] "t".data).serialize =
        pre ++ ("message:".data ++ "a\nxyz".data ++ ['\n']) ++ post) ∧
     ∃ c', CommitNode.deserialize
        (mkCommitNode "a\nxyz".data [] [] "t".data).serialize = .ok c' ∧
      c'.message = "a\nxyz".data.takeWhile (fun ch => ch != '\n')) :=
  ⟨by decide, by decide,
    C9_newlineMessage "a\nxyz".data "t".data [] [] (by decide) (by decide)
      (by decide) (by decide) (by decide)⟩
